import Mathlib

/-!
Verification of the biographical_RAG content pipeline.

Python strings are modelled as `List Char`; machine-level details that do not
matter to the claims (HTTP transport, HTML parsing, the vector store, the
generative model) enter as explicit collaborator parameters, exactly at the
boundaries the source code calls them.
-/

namespace BioRAG

/-! ## Python string primitives -/

/-- Whitespace characters removed by the Python method str.strip
(space, tab, newline, carriage return, vertical tab, form feed). -/
def isPyWS (c : Char) : Bool :=
  c = ' ' || c = '\t' || c = '\n' || c = '\x0d' || c = '\x0b' || c = '\x0c'

/-- Model of Python str.strip: drop leading and trailing whitespace. -/
def strip (s : List Char) : List Char :=
  ((s.dropWhile isPyWS).reverse.dropWhile isPyWS).reverse

/-- Model of Python str.split(sep) for a one-character separator:
split at every occurrence of the separator, keeping empty pieces, so the
result always has one more piece than there are separators. -/
def splitOnChar (sep : Char) : List Char → List (List Char)
  | [] => [[]]
  | c :: s =>
    let r := splitOnChar sep s
    if c = sep then [] :: r else (c :: r.headI) :: r.tail

/-! ## The Chunker: rag_qa.py `_split_text` -/

/-- The sentence fragments of `_split_text`: the text is split on periods and
each piece is stripped and has a period re-appended
(`sentence = sentence.strip() + '.'`). -/
def fragments (text : List Char) : List (List Char) :=
  (splitOnChar '.' text).map (fun s => strip s ++ ['.'])

/-- The accumulation loop of `_split_text`, carrying the `chunks` list, the
`current_chunk` fragment list and `current_size` exactly as the Python loop
does; a chunk is emitted when the next fragment would push the accumulated
fragment length past `chunk_size` and the current chunk is non-empty. -/
def splitTextAux (chunkSize : Nat) :
    List (List Char) → List (List Char) → List (List Char) → Nat → List (List Char)
  | [], chunks, cur, _ =>
    if cur = [] then chunks else chunks ++ [List.intercalate [' '] cur]
  | f :: fs, chunks, cur, size =>
    if chunkSize < size + f.length ∧ cur ≠ [] then
      splitTextAux chunkSize fs (chunks ++ [List.intercalate [' '] cur]) [f] f.length
    else
      splitTextAux chunkSize fs chunks (cur ++ [f]) (size + f.length)

/-- `_split_text(text, chunk_size)` from rag_qa.py. -/
def splitText (text : List Char) (chunkSize : Nat) : List (List Char) :=
  splitTextAux chunkSize (fragments text) [] [] 0

/-- Abstract view of the accumulation loop: the grouping of the fragment list
into consecutive chunks, before the groups are joined with spaces. -/
def chunkGroupsAux (chunkSize : Nat) :
    List (List Char) → List (List Char) → Nat → List (List (List Char))
  | [], cur, _ => if cur = [] then [] else [cur]
  | f :: fs, cur, size =>
    if chunkSize < size + f.length ∧ cur ≠ [] then
      cur :: chunkGroupsAux chunkSize fs [f] f.length
    else
      chunkGroupsAux chunkSize fs (cur ++ [f]) (size + f.length)

/-- The grouping of a fragment list produced by one run of the loop. -/
def chunkGroups (chunkSize : Nat) (fs : List (List Char)) : List (List (List Char)) :=
  chunkGroupsAux chunkSize fs [] 0

lemma splitTextAux_eq_groups (n : Nat) :
    ∀ (fs chunks cur : List (List Char)) (size : Nat),
      splitTextAux n fs chunks cur size
        = chunks ++ (chunkGroupsAux n fs cur size).map (List.intercalate [' ']) := by
  intro fs
  induction fs with
  | nil =>
    intro chunks cur size
    simp only [splitTextAux, chunkGroupsAux]
    by_cases h : cur = [] <;> simp [h]
  | cons f fs ih =>
    intro chunks cur size
    simp only [splitTextAux, chunkGroupsAux]
    by_cases h : n < size + f.length ∧ cur ≠ []
    · simp only [if_pos h, ih, List.map_cons, List.append_assoc, List.singleton_append]
    · simp only [if_neg h, ih]

/-- `_split_text` is the space-join of the fragment grouping. -/
lemma splitText_eq_groups (text : List Char) (n : Nat) :
    splitText text n = (chunkGroups n (fragments text)).map (List.intercalate [' ']) := by
  simpa using splitTextAux_eq_groups n (fragments text) [] [] 0

lemma chunkGroupsAux_join (n : Nat) :
    ∀ (fs cur : List (List Char)) (size : Nat),
      (chunkGroupsAux n fs cur size).flatten = cur ++ fs := by
  intro fs
  induction fs with
  | nil =>
    intro cur size
    simp only [chunkGroupsAux]
    by_cases h : cur = []
    · simp [h]
    · simp [h]
  | cons f fs ih =>
    intro cur size
    simp only [chunkGroupsAux]
    by_cases h : n < size + f.length ∧ cur ≠ []
    · simp [if_pos h, ih]
    · simp [if_neg h, ih]

lemma chunkGroupsAux_ne_nil (n : Nat) :
    ∀ (fs cur : List (List Char)) (size : Nat) (g : List (List Char)),
      g ∈ chunkGroupsAux n fs cur size → g ≠ [] := by
  intro fs
  induction fs with
  | nil =>
    intro cur size g hg
    simp only [chunkGroupsAux] at hg
    by_cases h : cur = []
    · simp [h] at hg
    · simp [h] at hg
      exact hg ▸ h
  | cons f fs ih =>
    intro cur size g hg
    simp only [chunkGroupsAux] at hg
    by_cases h : n < size + f.length ∧ cur ≠ []
    · rw [if_pos h] at hg
      rcases List.mem_cons.mp hg with h1 | h2
      · exact h1 ▸ h.2
      · exact ih _ _ g h2
    · rw [if_neg h] at hg
      exact ih _ _ g hg

/-- A group is admissible when it is a lone fragment or its fragments total at
most the chunk size. -/
def GOk (n : Nat) (g : List (List Char)) : Prop :=
  g.length ≤ 1 ∨ (g.map List.length).sum ≤ n

lemma chunkGroupsAux_gok (n : Nat) :
    ∀ (fs cur : List (List Char)) (size : Nat),
      size = (cur.map List.length).sum → GOk n cur →
      ∀ g ∈ chunkGroupsAux n fs cur size, GOk n g := by
  intro fs
  induction fs with
  | nil =>
    intro cur size _ hok g hg
    simp only [chunkGroupsAux] at hg
    by_cases h : cur = []
    · simp [h] at hg
    · simp [h] at hg
      exact hg ▸ hok
  | cons f fs ih =>
    intro cur size hsz hok g hg
    simp only [chunkGroupsAux] at hg
    by_cases h : n < size + f.length ∧ cur ≠ []
    · rw [if_pos h] at hg
      rcases List.mem_cons.mp hg with h1 | h2
      · exact h1 ▸ hok
      · exact ih [f] f.length (by simp) (Or.inl (by simp)) g h2
    · rw [if_neg h] at hg
      refine ih (cur ++ [f]) (size + f.length) (by simp [hsz]) ?_ g hg
      by_cases hcur : cur = []
      · subst hcur; exact Or.inl (by simp)
      · have hle : size + f.length ≤ n :=
          Nat.le_of_not_lt (fun hlt => h ⟨hlt, hcur⟩)
        refine Or.inr ?_
        simp only [List.map_append, List.sum_append, List.map_cons, List.map_nil,
          List.sum_cons, List.sum_nil]
        omega

lemma chunkGroups_join (n : Nat) (fs : List (List Char)) :
    (chunkGroups n fs).flatten = fs :=
  chunkGroupsAux_join n fs [] 0

lemma chunkGroups_ne_nil (n : Nat) (fs : List (List Char)) :
    ∀ g ∈ chunkGroups n fs, g ≠ [] :=
  fun g hg => chunkGroupsAux_ne_nil n fs [] 0 g hg

lemma chunkGroups_gok (n : Nat) (fs : List (List Char)) :
    ∀ g ∈ chunkGroups n fs, GOk n g :=
  chunkGroupsAux_gok n fs [] 0 (by simp) (Or.inl (by simp))

lemma chunkGroups_mem_frag (n : Nat) (fs : List (List Char)) :
    ∀ g ∈ chunkGroups n fs, ∀ f ∈ g, f ∈ fs := by
  intro g hg f hf
  have : f ∈ (chunkGroups n fs).flatten := List.mem_flatten.mpr ⟨g, hg, hf⟩
  rwa [chunkGroups_join] at this

/-! ## Facts about strip and splitOnChar -/

lemma strip_eq_rdropWhile (s : List Char) :
    strip s = List.rdropWhile isPyWS (List.dropWhile isPyWS s) := rfl

lemma dropWhile_append_self {α : Type} (p : α → Bool) :
    ∀ (x y : List α), List.dropWhile p (x ++ y) = x ++ y → List.dropWhile p x = x := by
  intro x y h
  cases x with
  | nil => rfl
  | cons c x =>
    by_cases hc : p c
    · exfalso
      rw [List.cons_append, List.dropWhile_cons, if_pos hc] at h
      have hle := (List.dropWhile_sublist (l := x ++ y) p).length_le
      have hlen := congrArg List.length h
      simp only [List.length_cons, List.length_append] at hle hlen
      omega
    · rw [List.dropWhile_cons, if_neg hc]

lemma strip_fix_left (s : List Char) :
    List.dropWhile isPyWS (strip s) = strip s := by
  set A := List.dropWhile isPyWS s with hA
  have hAfix : List.dropWhile isPyWS A = A := List.dropWhile_idempotent isPyWS s
  have hsplit : List.rdropWhile isPyWS A ++ (List.takeWhile isPyWS A.reverse).reverse = A := by
    have := List.takeWhile_append_dropWhile (p := isPyWS) (l := A.reverse)
    have h2 := congrArg List.reverse this
    simp only [List.reverse_append, List.reverse_reverse] at h2
    simpa [List.rdropWhile] using h2
  rw [strip_eq_rdropWhile, ← hA]
  refine dropWhile_append_self isPyWS _ ((List.takeWhile isPyWS A.reverse).reverse) ?_
  rw [hsplit]
  exact hAfix

lemma strip_idem (s : List Char) : strip (strip s) = strip s := by
  rw [strip_eq_rdropWhile (strip s), strip_fix_left, strip_eq_rdropWhile s,
    List.rdropWhile_idempotent]

lemma strip_cons_ws {c : Char} (h : isPyWS c = true) (s : List Char) :
    strip (c :: s) = strip s := by
  unfold strip
  rw [List.dropWhile_cons, if_pos h]

lemma strip_subset {s : List Char} : ∀ a ∈ strip s, a ∈ s := by
  intro a ha
  unfold strip at ha
  rw [List.mem_reverse] at ha
  have h1 := (List.dropWhile_sublist (l := (List.dropWhile isPyWS s).reverse) isPyWS).subset ha
  rw [List.mem_reverse] at h1
  exact (List.dropWhile_sublist (l := s) isPyWS).subset h1

lemma splitOnChar_ne_nil (sep : Char) : ∀ s, splitOnChar sep s ≠ [] := by
  intro s
  cases s with
  | nil => simp [splitOnChar]
  | cons c s =>
    simp only [splitOnChar]
    by_cases h : c = sep <;> simp [h]

lemma splitOnChar_cons_sep (sep : Char) (s : List Char) :
    splitOnChar sep (sep :: s) = [] :: splitOnChar sep s := by
  simp [splitOnChar]

lemma splitOnChar_cons_ne {sep c : Char} (h : ¬c = sep) (s : List Char) :
    splitOnChar sep (c :: s)
      = (c :: (splitOnChar sep s).headI) :: (splitOnChar sep s).tail := by
  simp [splitOnChar, h]

lemma splitOnChar_sep_free_append {sep : Char} :
    ∀ {u : List Char}, sep ∉ u → ∀ (y : List Char),
      splitOnChar sep (u ++ sep :: y) = u :: splitOnChar sep y := by
  intro u
  induction u with
  | nil => intro _ y; simpa using splitOnChar_cons_sep sep y
  | cons c u ih =>
    intro hu y
    have hc : ¬c = sep := fun hh => hu (hh ▸ List.mem_cons_self c u)
    rw [List.cons_append, splitOnChar_cons_ne hc, ih (fun hm => hu (List.mem_cons_of_mem c hm)) y]
    simp

lemma splitOnChar_no_sep (sep : Char) : ∀ (s : List Char), ∀ p ∈ splitOnChar sep s, sep ∉ p := by
  intro s
  induction s with
  | nil => intro p hp; simp [splitOnChar] at hp; simp [hp]
  | cons c s ih =>
    intro p hp
    by_cases h : c = sep
    · subst h
      rw [splitOnChar_cons_sep] at hp
      rcases List.mem_cons.mp hp with h1 | h2
      · simp [h1]
      · exact ih p h2
    · rw [splitOnChar_cons_ne h] at hp
      rcases List.mem_cons.mp hp with h1 | h2
      · subst h1
        intro hmem
        rcases List.mem_cons.mp hmem with h3 | h4
        · exact h h3.symm
        · rcases hr : splitOnChar sep s with _ | ⟨g, gs⟩
          · exact splitOnChar_ne_nil sep s hr
          · have : sep ∈ g := by rw [hr] at h4; simpa using h4
            exact ih g (by rw [hr]; exact List.mem_cons_self g gs) this
      · exact ih p (List.mem_of_mem_tail h2)

/-! ## Fragment structure -/

/-- The shape of every fragment built by the Chunker: a stripped, period-free
core followed by the re-appended period. -/
def IsFrag (f : List Char) : Prop :=
  ∃ u, f = u ++ ['.'] ∧ '.' ∉ u ∧ strip u = u

/-- The core of a fragment: everything before the re-appended period. -/
def fragCore (f : List Char) : List Char := f.dropLast

lemma fragments_isFrag (t : List Char) : ∀ f ∈ fragments t, IsFrag f := by
  intro f hf
  rcases List.mem_map.mp hf with ⟨s, hs, rfl⟩
  refine ⟨strip s, rfl, ?_, strip_idem s⟩
  intro hdot
  exact splitOnChar_no_sep '.' t s hs (strip_subset '.' hdot)

lemma fragments_core (t : List Char) :
    (fragments t).map fragCore = (splitOnChar '.' t).map strip := by
  unfold fragments
  rw [List.map_map]
  refine List.map_congr_left ?_
  intro s _
  simp [fragCore, List.dropLast_concat]

lemma fragments_ne_nil (t : List Char) : fragments t ≠ [] := by
  unfold fragments
  intro h
  exact splitOnChar_ne_nil '.' t (List.map_eq_nil_iff.mp h)

lemma fragments_mem_ne_nil (t : List Char) : ∀ f ∈ fragments t, f ≠ [] := by
  intro f hf
  rcases fragments_isFrag t f hf with ⟨u, rfl, -, -⟩
  simp

/-! ## Intercalate helpers -/

lemma intercalate_singleton {α : Type} (s : List α) (a : List α) :
    List.intercalate s [a] = a := by
  simp [List.intercalate]

lemma intercalate_cons_cons {α : Type} (s a b : List α) (l : List (List α)) :
    List.intercalate s (a :: b :: l) = a ++ s ++ List.intercalate s (b :: l) := by
  simp [List.intercalate, List.intersperse_cons_cons]

lemma intercalate_ne_nil_of_head (g : List (List Char)) (f : List Char) (hf : f ≠ []) :
    List.intercalate [' '] (f :: g) ≠ [] := by
  cases g with
  | nil => rw [intercalate_singleton]; exact hf
  | cons b l =>
    rw [intercalate_cons_cons]
    simp

lemma intercalate_length (g : List (List Char)) (f : List Char) :
    (List.intercalate [' '] (f :: g)).length + 1
      = ((f :: g).map List.length).sum + (f :: g).length := by
  induction g generalizing f with
  | nil => simp [intercalate_singleton]
  | cons b l ih =>
    rw [intercalate_cons_cons]
    have h2 := ih b
    simp only [List.length_append, List.length_cons, List.length_nil, List.map_cons,
      List.sum_cons] at h2 ⊢
    omega

/-! ## Splitting the joined chunks recovers the stripped sentences (claim C7 core) -/

lemma mapStrip_split_space (w : List Char) :
    (splitOnChar '.' (' ' :: w)).map strip = (splitOnChar '.' w).map strip := by
  rw [splitOnChar_cons_ne (by decide)]
  rcases hr : splitOnChar '.' w with _ | ⟨h, tl⟩
  · exact absurd hr (splitOnChar_ne_nil '.' w)
  · simp only [hr, List.headI, List.tail, List.map_cons]
    rw [strip_cons_ws (by decide)]

lemma mapStrip_split_group :
    ∀ (g : List (List Char)), g ≠ [] → (∀ f ∈ g, IsFrag f) → ∀ (y : List Char),
      (splitOnChar '.' (List.intercalate [' '] g ++ y)).map strip
        = g.map fragCore ++ (splitOnChar '.' y).map strip := by
  intro g
  induction g with
  | nil => intro h; exact absurd rfl h
  | cons f g ih =>
    intro _ hfrag y
    rcases hfrag f (List.mem_cons_self f g) with ⟨u, rfl, hnd, hsu⟩
    cases g with
    | nil =>
      rw [intercalate_singleton, List.append_assoc, List.singleton_append,
        splitOnChar_sep_free_append hnd]
      simp only [List.map_cons, hsu, List.map_nil, List.nil_append]
      congr 1
      simp [fragCore, List.dropLast_concat]
    | cons b l =>
      rw [intercalate_cons_cons]
      have harr : (u ++ ['.']) ++ [' '] ++ List.intercalate [' '] (b :: l) ++ y
          = u ++ '.' :: (' ' :: (List.intercalate [' '] (b :: l) ++ y)) := by
        simp
      rw [harr, splitOnChar_sep_free_append hnd]
      simp only [List.map_cons, hsu]
      rw [mapStrip_split_space, ih (by simp) (fun f hf => hfrag f (List.mem_cons_of_mem _ hf)) y]
      congr 1
      simp [fragCore, List.dropLast_concat]

lemma mapStrip_split_glue :
    ∀ (gs : List (List (List Char))), (∀ g ∈ gs, g ≠ [] ∧ ∀ f ∈ g, IsFrag f) →
      (splitOnChar '.' (gs.map (List.intercalate [' '])).flatten).map strip
        = gs.flatten.map fragCore ++ [[]] := by
  intro gs
  induction gs with
  | nil => intro _; simp [splitOnChar, strip]
  | cons g gs ih =>
    intro hok
    rcases hok g (List.mem_cons_self g gs) with ⟨hne, hfr⟩
    simp only [List.map_cons, List.flatten_cons]
    rw [mapStrip_split_group g hne hfr, ih (fun g' hg' => hok g' (List.mem_cons_of_mem _ hg'))]
    simp [List.map_append, List.append_assoc]

/-! ## Claim theorems for the Chunker -/

/-- C3 (amended): every chunk emitted by the Chunker is the space-join of a
non-empty group of sentence fragments of the text; the group is either a single
fragment (this is the only way a lone oversized sentence appears, emitted
alone), or its fragments total at most chunk_size characters, in which case the
chunk string exceeds chunk_size by at most the number of single joining spaces
(one less than the group size), spaces the accumulation loop of the code does
not count. -/
theorem splitText_chunk_bound :
    ∀ (text : List Char) (chunkSize : Nat), ∀ c ∈ splitText text chunkSize,
      ∃ g, g ≠ [] ∧ (∀ f ∈ g, f ∈ fragments text) ∧ c = List.intercalate [' '] g ∧
        (g.length = 1 ∨ ((g.map List.length).sum ≤ chunkSize ∧
          c.length + 1 ≤ chunkSize + g.length)) := by
  intro text n c hc
  rw [splitText_eq_groups] at hc
  rcases List.mem_map.mp hc with ⟨g, hg, rfl⟩
  have hne := chunkGroups_ne_nil n (fragments text) g hg
  refine ⟨g, hne, chunkGroups_mem_frag n (fragments text) g hg, rfl, ?_⟩
  rcases chunkGroups_gok n (fragments text) g hg with h1 | h2
  · left
    cases g with
    | nil => exact absurd rfl hne
    | cons f l =>
      cases l with
      | nil => rfl
      | cons b m => simp at h1
  · refine Or.inr ⟨h2, ?_⟩
    cases g with
    | nil => exact absurd rfl hne
    | cons f l =>
      have hlen := intercalate_length l f
      simp only [List.map_cons, List.sum_cons, List.length_cons] at hlen h2 ⊢
      omega

/-- C3 witness: the bound instantiated on a concrete text and chunk size. -/
theorem splitText_chunk_bound_witness :
    ∃ g, g ≠ [] ∧ (∀ f ∈ g, f ∈ fragments "ab.cd".data) ∧
      "ab. cd.".data = List.intercalate [' '] g ∧
      (g.length = 1 ∨ ((g.map List.length).sum ≤ 20 ∧
        ("ab. cd.".data).length + 1 ≤ 20 + g.length)) :=
  splitText_chunk_bound "ab.cd".data 20 "ab. cd.".data (by decide)

/-- C3 counterexample: with chunk size 10 and text "aaaa.bbbb", no sentence
fragment exceeds 10 characters, yet the single emitted chunk has length 11,
because the joining space between the two accumulated fragments is not counted
against the bound; so the claim that every chunk not consisting of a lone
oversized fragment has length at most chunk_size is false. -/
theorem splitText_chunk_bound_counterexample :
    splitText "aaaa.bbbb".data 10 = ["aaaa. bbbb.".data] ∧
    ("aaaa. bbbb.".data).length = 11 ∧
    (fragments "aaaa.bbbb".data).all (fun f => f.length ≤ 10) = true := by
  decide

/-- C7: splitting the concatenation of all emitted chunks on periods and
stripping each piece recovers exactly the stripped sentence sequence of the
original text, plus one final empty piece contributed by the period the code
re-appends to the last fragment: the split-then-concatenate round trip
preserves the sentence sequence modulo whitespace. -/
theorem splitText_roundtrip (text : List Char) (n : Nat) :
    (splitOnChar '.' (splitText text n).flatten).map strip
      = (splitOnChar '.' text).map strip ++ [[]] := by
  rw [splitText_eq_groups]
  rw [mapStrip_split_glue _ (fun g hg => ⟨chunkGroups_ne_nil _ _ g hg,
    fun f hf => fragments_isFrag text f (chunkGroups_mem_frag _ _ g hg f hf)⟩)]
  rw [chunkGroups_join, fragments_core]

/-- C10: on the empty string the Chunker returns the one-element list holding
the single period fragment, and on every input it returns a non-empty list of
non-empty chunks, because every fragment has a period re-appended before
accumulation. -/
theorem splitText_empty_and_nonempty :
    splitText [] 1000 = [['.']] ∧
    ∀ (text : List Char) (n : Nat), splitText text n ≠ [] ∧
      (splitText text n).all (fun c => !c.isEmpty) = true := by
  refine ⟨by decide, ?_⟩
  intro text n
  constructor
  · rw [splitText_eq_groups]
    intro h
    have hj := chunkGroups_join n (fragments text)
    rw [List.map_eq_nil_iff.mp h] at hj
    exact fragments_ne_nil text hj.symm
  · rw [List.all_eq_true]
    intro c hc
    rw [splitText_eq_groups] at hc
    rcases List.mem_map.mp hc with ⟨g, hg, rfl⟩
    cases g with
    | nil => exact absurd rfl (chunkGroups_ne_nil n (fragments text) _ hg)
    | cons f l =>
      have hf : f ≠ [] := fragments_mem_ne_nil text f
        (chunkGroups_mem_frag n (fragments text) _ hg f (List.mem_cons_self f l))
      have hne := intercalate_ne_nil_of_head l f hf
      simpa [List.isEmpty_iff] using hne

/-! ## URL Normalizer: scraper.py `_clean_url` and the parts of
urllib.parse it calls -/

/-- Model of the regex substitution re.sub applied in `_clean_url`: every
occurrence of the five characters of the HTML entity for an ampersand is
replaced by a single ampersand, scanning left to right without rescanning the
replacement. -/
def replaceAmp : List Char → List Char
  | '&' :: 'a' :: 'm' :: 'p' :: ';' :: rest => '&' :: replaceAmp rest
  | c :: rest => c :: replaceAmp rest
  | [] => []

/-- Hexadecimal digit value, as used by percent-decoding. -/
def hexVal (c : Char) : Option Nat :=
  if '0' ≤ c ∧ c ≤ '9' then some (c.toNat - '0'.toNat)
  else if 'a' ≤ c ∧ c ≤ 'f' then some (c.toNat - 'a'.toNat + 10)
  else if 'A' ≤ c ∧ c ≤ 'F' then some (c.toNat - 'A'.toNat + 10)
  else none

/-- Model of urllib.parse.unquote restricted to single-byte percent escapes: a
percent sign followed by two hex digits becomes the character with that code,
anything else is passed through unchanged (multi-byte UTF-8 escapes are out of
scope; no input in this development contains them). -/
def unquote : List Char → List Char
  | '%' :: a :: b :: rest =>
    match hexVal a, hexVal b with
    | some x, some y => Char.ofNat (16 * x + y) :: unquote rest
    | _, _ => '%' :: unquote (a :: b :: rest)
  | c :: rest => c :: unquote rest
  | [] => []

/-- Characters allowed in a URL scheme by urllib.parse. -/
def schemeChar (c : Char) : Bool :=
  c.isAlpha || c.isDigit || c = '+' || c = '-' || c = '.'

/-- A non-empty candidate scheme is valid when it starts with a letter and all
its characters are scheme characters, as in urllib.parse. -/
def validScheme (pre : List Char) : Bool :=
  match pre with
  | [] => false
  | c :: _ => c.isAlpha && pre.all schemeChar

/-- Model of the scheme detection of urllib.parse.urlparse: the text before
the first colon is the (lowercased) scheme when it is a valid scheme, in which
case the remainder follows the colon; otherwise the scheme is empty and the
whole string remains. -/
def splitScheme (s : List Char) : List Char × List Char :=
  match s.findIdx? (fun c => c = ':') with
  | some i =>
    if validScheme (s.take i) then ((s.take i).map Char.toLower, s.drop (i + 1))
    else ([], s)
  | none => ([], s)

/-- A character ending the network-location part of a URL. -/
def netlocEnd (c : Char) : Bool := c = '/' || c = '?' || c = '#'

/-- Model of urlparse(...).netloc: after removing the scheme, a remainder
starting with two slashes carries the network location up to the next
slash, question mark or hash; otherwise the network location is empty. -/
def parseNetloc (s : List Char) : List Char :=
  match (splitScheme s).2 with
  | '/' :: '/' :: r => r.takeWhile (fun c => !netlocEnd c)
  | _ => []

/-- urlparse(url).netloc on strings. -/
def urlNetloc (url : String) : String := String.mk (parseNetloc url.data)

/-- `_clean_url` from scraper.py: strip whitespace, decode the ampersand
entity, percent-decode, then parse; if the parse has no scheme prepend the
https scheme, and if the parse has no network location return no value. The
parse is computed once, before the scheme is prepended. -/
def clean_url (url : String) : Option String :=
  let u1 := strip url.data
  let u2 := replaceAmp u1
  let u3 := unquote u2
  let parsedScheme := (splitScheme u3).1
  let parsedNetloc := parseNetloc u3
  let u4 := if parsedScheme = [] then "https://".data ++ u3 else u3
  if parsedNetloc = [] then none else some (String.mk u4)

/-- C1: evaluation of `_clean_url` on the inputs named by the claim. The
entity decoding and the rejection of schemeless strings are visible here:
a schemeless URL such as "example.com/a" is rejected (the network location
is read from the parse made before the https scheme is prepended), while the
spec requires it to normalize to "https://example.com/a". -/
theorem clean_url_eval :
    clean_url "example.com/a" = none ∧
    clean_url "not a url" = none ∧
    clean_url "http://x.com/a&amp;b" = some "http://x.com/a&b" ∧
    clean_url " https://e.org/p " = some "https://e.org/p" := by
  refine ⟨by decide, by decide, by decide, by decide⟩

/-! ## The substring test used for domain filtering and query keywords -/

/-- Does the second list occur at the start of the first list of characters? -/
def startsWithSeq : List Char → List Char → Bool
  | _, [] => true
  | [], _ :: _ => false
  | a :: as, b :: bs => b = a && startsWithSeq as bs

/-- Model of the Python substring test (needle in hay). -/
def containsSeq : List Char → List Char → Bool
  | _, [] => true
  | [], _ :: _ => false
  | c :: rest, needle => startsWithSeq (c :: rest) needle || containsSeq rest needle

/-- Substring test on strings. -/
def strContains (hay needle : String) : Bool := containsSeq hay.data needle.data

/-- Python str.lower, restricted to the character-wise lowering that the
queries in this program need. -/
def lowerStr (s : String) : String := String.mk (s.data.map Char.toLower)

/-! ## Search Adapter: scraper.py `_search_duckduckgo` -/

/-- The parts of the search result page markup that `_search_duckduckgo`
reads: the display texts of the result-URL elements, then the href attributes
of the result anchors, each in document scan order (a missing href is the
empty string, as the attribute lookup defaults). -/
structure SearchPage where
  resultUrlTexts : List String
  resultAHrefs : List String

/-- The domain names excluded by `_search_duckduckgo`. -/
def excludedDomains : List String :=
  ["google.com", "youtube.com", "facebook.com", "twitter.com"]

/-- A cleaned URL passes the domain filter when no excluded name occurs inside
its network location. -/
def allowedUrl (u : String) : Bool :=
  !(excludedDomains.any (fun e => strContains (urlNetloc u) e))

/-- One iteration of the link-collecting loops of `_search_duckduckgo`: skip
empty raw strings, clean the URL, filter by domain, and insert into the
accumulated set of links (modelled by its first-insertion-ordered contents). -/
def stepLink (links : List String) (raw : String) : List String :=
  if raw = "" then links
  else
    match clean_url raw with
    | none => links
    | some cu =>
      if allowedUrl cu then (if cu ∈ links then links else links ++ [cu]) else links

/-- The contents of the links set after both extraction loops of
`_search_duckduckgo`, ordered by first insertion. -/
def searchLinks (page : SearchPage) : List String :=
  (page.resultUrlTexts ++ page.resultAHrefs).foldl stepLink []

/-- Collaborators of `_search_duckduckgo`: the fetch of the result page for a
query, and the iteration order the Python set assigns to its elements when
list() is applied. CPython randomizes string hashing, so that order is an
arbitrary permutation of the distinct elements, constrained only by the
set-semantics hypothesis stated in the theorems below. -/
structure SearchEnv where
  fetchSearch : String → Option SearchPage
  setList : List String → List String

/-- `_search_duckduckgo(query, max_results)` from scraper.py. -/
def search_duckduckgo (env : SearchEnv) (query : String) (maxResults : Nat) :
    List String :=
  match env.fetchSearch query with
  | none => []
  | some page => (env.setList (searchLinks page)).take maxResults

lemma stepLink_inv (links : List String) (raw : String)
    (h : links.Nodup ∧ ∀ u ∈ links, allowedUrl u = true) :
    (stepLink links raw).Nodup ∧ ∀ u ∈ stepLink links raw, allowedUrl u = true := by
  unfold stepLink
  by_cases hr : raw = ""
  · simpa [hr] using h
  · rw [if_neg hr]
    rcases hcu : clean_url raw with _ | cu
    · exact h
    · simp only
      by_cases ha : allowedUrl cu = true
      · rw [if_pos ha]
        by_cases hm : cu ∈ links
        · simpa [hm] using h
        · rw [if_neg hm]
          constructor
          · exact List.Nodup.append h.1 (List.nodup_singleton cu)
              (by simpa [List.disjoint_singleton] using hm)
          · intro u hu
            rcases List.mem_append.mp hu with h1 | h2
            · exact h.2 u h1
            · rw [List.mem_singleton.mp h2]; exact ha
      · rw [if_neg ha]; exact h

lemma foldl_stepLink_inv :
    ∀ (raws : List String) (links : List String),
      links.Nodup ∧ (∀ u ∈ links, allowedUrl u = true) →
      (raws.foldl stepLink links).Nodup ∧
        ∀ u ∈ raws.foldl stepLink links, allowedUrl u = true := by
  intro raws
  induction raws with
  | nil => intro links h; exact h
  | cons r raws ih =>
    intro links h
    exact ih (stepLink links r) (stepLink_inv links r h)

lemma searchLinks_nodup (page : SearchPage) : (searchLinks page).Nodup :=
  (foldl_stepLink_inv _ [] ⟨List.nodup_nil, by simp⟩).1

lemma searchLinks_allowed (page : SearchPage) :
    ∀ u ∈ searchLinks page, allowedUrl u = true :=
  (foldl_stepLink_inv _ [] ⟨List.nodup_nil, by simp⟩).2

/-- C4 (amended): under the set-semantics hypothesis on the iteration order,
`_search_duckduckgo` returns pairwise-distinct URLs, every one passing the
domain exclusion filter and drawn from the URLs collected off the result page,
truncated to at most max_results elements. The order of the returned list is
the iteration order of the Python set, which is not the insertion order of
first discovery. -/
theorem search_duckduckgo_spec :
    ∀ (env : SearchEnv) (query : String) (maxResults : Nat),
      (∀ l, (env.setList l).Perm l.dedup) →
      (search_duckduckgo env query maxResults).length ≤ maxResults ∧
      (search_duckduckgo env query maxResults).Nodup ∧
      ∀ u ∈ search_duckduckgo env query maxResults, allowedUrl u = true ∧
        ∀ page, env.fetchSearch query = some page → u ∈ searchLinks page := by
  intro env query maxResults h
  unfold search_duckduckgo
  rcases hf : env.fetchSearch query with _ | page
  · simp
  · have hdedup : (searchLinks page).dedup = searchLinks page :=
      List.dedup_eq_self.mpr (searchLinks_nodup page)
    have hperm : (env.setList (searchLinks page)).Perm (searchLinks page) := by
      have hp := h (searchLinks page)
      rwa [hdedup] at hp
    refine ⟨?_, ?_, ?_⟩
    · rw [List.length_take]; exact min_le_left _ _
    · exact List.Nodup.sublist (List.take_sublist _ _)
        (hperm.symm.nodup (searchLinks_nodup page))
    · intro u hu
      have hmem : u ∈ searchLinks page :=
        hperm.mem_iff.mp (List.take_subset _ _ hu)
      refine ⟨searchLinks_allowed page u hmem, ?_⟩
      intro page' hp'
      exact (Option.some_injective _ hp') ▸ hmem

/-- The result page used by the C4 witness and counterexample: two distinct
clean URLs discovered in this order. -/
def pageTwoUrls : SearchPage :=
  ⟨["http://a.com/x", "http://b.com/y"], []⟩

/-- A search environment whose set iteration order happens to match first
insertion. -/
def searchEnvInOrder : SearchEnv :=
  ⟨fun _ => some pageTwoUrls, fun l => l.dedup⟩

/-- A search environment whose set iteration order reverses first insertion;
it satisfies the same set-semantics contract. -/
def searchEnvReversed : SearchEnv :=
  ⟨fun _ => some pageTwoUrls, fun l => l.reverse⟩

/-- C4 witness: the amended specification instantiated on a concrete
environment. -/
theorem search_duckduckgo_spec_witness :
    (search_duckduckgo searchEnvInOrder "q" 2).length ≤ 2 ∧
    (search_duckduckgo searchEnvInOrder "q" 2).Nodup :=
  ⟨(search_duckduckgo_spec searchEnvInOrder "q" 2 (fun l => List.Perm.refl l.dedup)).1,
   (search_duckduckgo_spec searchEnvInOrder "q" 2 (fun l => List.Perm.refl l.dedup)).2.1⟩

/-- C4 counterexample: an iteration order satisfying the set-semantics
contract under which the returned list is NOT in insertion order of first
discovery, refuting the claimed ordering guarantee (the code applies list()
to a Python set, whose iteration order is arbitrary). -/
theorem search_duckduckgo_order_counterexample :
    searchLinks pageTwoUrls = ["http://a.com/x", "http://b.com/y"] ∧
    (searchEnvReversed.setList (searchLinks pageTwoUrls)).Perm
      ((searchLinks pageTwoUrls).dedup) ∧
    search_duckduckgo searchEnvReversed "q" 3
      = ["http://b.com/y", "http://a.com/x"] := by
  refine ⟨by decide, by decide, by decide⟩

/-! ## Content Extractor: scraper.py `_scrape_wikisource`, `_scrape_gutenberg`
and `_extract_content` -/

/-- The outcomes of the BeautifulSoup operations the extractors perform on a
fetched page: the cleaned text of the wikisource content container (if that
div exists), the text of the gutenberg text container, the cleaned texts the
ten generic content selectors would yield in their fixed priority order, the
cleaned text of the document body, and the page title. HTML parsing itself is
a collaborator; these fields are its outputs. -/
structure Soup where
  mwParserText : Option String
  gutenbergText : Option String
  selectorTexts : List (Option String)
  bodyText : Option String
  titleOpt : Option String

/-- `_scrape_wikisource`: the stripped text of the content division, with no
length threshold applied. -/
def scrape_wikisource (soup : Soup) : Option String := soup.mwParserText

/-- `_scrape_gutenberg`: the stripped text of the text division, with no
length threshold applied. -/
def scrape_gutenberg (soup : Soup) : Option String := soup.gutenbergText

/-- The selector probe of `_extract_content`: the first selector whose element
exists and whose cleaned text is longer than 500 characters wins; an existing
but short element does not stop the probe. -/
def probeSelectors : List (Option String) → Option String
  | [] => none
  | none :: rest => probeSelectors rest
  | some c :: rest => if 500 < c.length then some c else probeSelectors rest

/-- `_extract_content`: probe the generic selectors, then fall back to the
whole document body, accepted only when longer than 500 characters. -/
def extract_content (soup : Soup) : Option String :=
  match probeSelectors soup.selectorTexts with
  | some c => some c
  | none =>
    match soup.bodyText with
    | some c => if 500 < c.length then some c else none
    | none => none

/-- Python truthiness of an optional string: None and the empty string are
falsy. -/
def truthy : Option String → Bool
  | none => false
  | some s => !s.isEmpty

lemma probeSelectors_length :
    ∀ (ts : List (Option String)) (c : String),
      probeSelectors ts = some c → 500 < c.length := by
  intro ts
  induction ts with
  | nil => intro c h; exact absurd h (by simp [probeSelectors])
  | cons t rest ih =>
    intro c h
    rcases t with _ | sel
    · exact ih c (by simpa [probeSelectors] using h)
    · by_cases hl : 500 < sel.length
      · simp only [probeSelectors] at h
        rw [if_pos hl] at h
        cases h
        exact hl
      · simp only [probeSelectors] at h
        rw [if_neg hl] at h
        exact ih c h

lemma extract_content_length (soup : Soup) (c : String) :
    extract_content soup = some c → 500 < c.length := by
  intro h
  unfold extract_content at h
  rcases hp : probeSelectors soup.selectorTexts with _ | c0
  · simp only [hp] at h
    rcases hb : soup.bodyText with _ | b
    · simp only [hb] at h
      exact absurd h (by simp)
    · simp only [hb] at h
      by_cases hl : 500 < b.length
      · rw [if_pos hl] at h
        cases h
        exact hl
      · rw [if_neg hl] at h
        exact absurd h (by simp)
  · simp only [hp] at h
    cases h
    exact probeSelectors_length soup.selectorTexts c hp

/-! ## Source Collector: scraper.py `scrape_content` -/

/-- One scraped document, with the fields scrape_content fills. -/
structure ContentRecord where
  source_url : String
  content : String
  content_type : String
  person : String
  scraped_date : String
  title : String
deriving DecidableEq

/-- Collaborators of `scrape_content`: the search (through
`_search_duckduckgo`), the rate-limited fetch-and-parse of one URL (None on
any transport failure), and the clock read used for scraped_date. -/
structure ScrapeEnv where
  search : String → Nat → List String
  fetch : String → Option Soup
  now : String

/-- The primary-phase query list of `scrape_content`. -/
def primaryQueries (name : String) : List String :=
  ["site:wikisource.org " ++ name ++ " writings",
   "site:gutenberg.org " ++ name ++ " works",
   name ++ " original writings",
   name ++ " letters correspondence primary source"]

/-- The secondary-phase query list of `scrape_content`. -/
def secondaryQueries (name : String) : List String :=
  [name ++ " philosophical writings analysis",
   name ++ " historical biography"]

/-- The known reliable sources dispatch of scrape_content, in the insertion
order of the Python dict: the first entry whose domain name occurs inside the
netloc of the URL wins. -/
def knownScraperFor (domain : String) : Option (Soup → Option String) :=
  if strContains domain "wikisource.org" then some scrape_wikisource
  else if strContains domain "gutenberg.org" then some scrape_gutenberg
  else none

/-- A record as scrape_content builds it. -/
def mkRecord (env : ScrapeEnv) (name url ctype content : String) (soup : Soup) :
    ContentRecord :=
  ⟨url, content, ctype, name, env.now, soup.titleOpt.getD url⟩

/-- The loop state of one collection run: the accumulated records, the seen
URL set (as its insertion-ordered contents) and the two per-phase counters. -/
structure CState where
  collected : List ContentRecord
  seen : List String
  pcount : Nat
  scount : Nat

/-- Processing of one URL inside the primary phase of scrape_content: skip
seen URLs and stop counting past the cap, mark seen, fetch, try the known
domain scraper, and fall back to generic extraction when the known content is
falsy and the query mentions primary. -/
def processPrimaryUrl (env : ScrapeEnv) (name query : String) (st : CState)
    (url : String) : CState :=
  if url ∈ st.seen ∨ 5 ≤ st.pcount then st
  else
    let st1 : CState := { st with seen := st.seen ++ [url] }
    match env.fetch url with
    | none => st1
    | some soup =>
      let knownContent : Option String :=
        match knownScraperFor (urlNetloc url) with
        | some f => f soup
        | none => none
      let st2 : CState :=
        if truthy knownContent then
          { st1 with
            collected := st1.collected
              ++ [mkRecord env name url "primary_source" (knownContent.getD "") soup],
            pcount := st1.pcount + 1 }
        else st1
      if truthy knownContent = false ∧ strContains (lowerStr query) "primary" = true then
        match extract_content soup with
        | some c =>
          if truthy (some c) then
            { st2 with
              collected := st2.collected
                ++ [mkRecord env name url "primary_source" c soup],
              pcount := st2.pcount + 1 }
          else st2
        | none => st2
      else st2

/-- Processing of one URL inside the secondary phase of scrape_content:
generic extraction only, recorded as a secondary source. -/
def processSecondaryUrl (env : ScrapeEnv) (name : String) (st : CState)
    (url : String) : CState :=
  if url ∈ st.seen ∨ 2 ≤ st.scount then st
  else
    let st1 : CState := { st with seen := st.seen ++ [url] }
    match env.fetch url with
    | none => st1
    | some soup =>
      match extract_content soup with
      | some c =>
        if truthy (some c) then
          { st1 with
            collected := st1.collected
              ++ [mkRecord env name url "secondary_source" c soup],
            scount := st1.scount + 1 }
        else st1
      | none => st1

/-- The primary-phase query loop, stopping once the primary cap is reached. -/
def primaryPhase (env : ScrapeEnv) (name : String) :
    List String → CState → CState
  | [], st => st
  | q :: qs, st =>
    if 5 ≤ st.pcount then st
    else primaryPhase env name qs
      ((env.search q 2).foldl (processPrimaryUrl env name q) st)

/-- The secondary-phase query loop, stopping once the secondary cap is
reached. -/
def secondaryPhase (env : ScrapeEnv) (name : String) :
    List String → CState → CState
  | [], st => st
  | q :: qs, st =>
    if 2 ≤ st.scount then st
    else secondaryPhase env name qs
      ((env.search q 1).foldl (processSecondaryUrl env name) st)

/-- `scrape_content(name)` from scraper.py: primary phase over the primary
queries, then, when fewer than the combined cap of records were collected, the
secondary phase over the secondary queries. -/
def scrape_content (env : ScrapeEnv) (name : String) : List ContentRecord :=
  let st1 := primaryPhase env name (primaryQueries name) ⟨[], [], 0, 0⟩
  let st2 :=
    if st1.collected.length < 7 then
      secondaryPhase env name (secondaryQueries name) st1
    else st1
  st2.collected

/-! ## Invariants of one collection run -/

lemma truthy_some_ne (s : String) (h : truthy (some s) = true) : s ≠ "" := by
  intro he
  subst he
  have he2 : ("" : String).isEmpty = true := (String.isEmpty_iff "").mpr rfl
  simp [truthy, he2] at h

lemma truthy_none : truthy none = false := rfl

/-- The properties every record accepted by scrape_content satisfies. -/
def RecOK (r : ContentRecord) : Prop :=
  (r.content_type = "primary_source" ∨ r.content_type = "secondary_source") ∧
  r.content ≠ "" ∧
  (r.content_type = "secondary_source" → 500 < r.content.length)

/-- The loop-state invariant of scrape_content: distinct source URLs, every
collected URL marked seen, and every record well formed. -/
def StOK (st : CState) : Prop :=
  (st.collected.map ContentRecord.source_url).Nodup ∧
  (∀ r ∈ st.collected, r.source_url ∈ st.seen) ∧
  (∀ r ∈ st.collected, RecOK r)

/-- Shape of one primary-phase URL step: either the state is unchanged, or the
URL was new, is appended to the seen set, and at most one new record is
appended, a well-formed primary-source record for that URL. -/
lemma processPrimaryUrl_cases (env : ScrapeEnv) (name q : String) (st : CState)
    (url : String) :
    processPrimaryUrl env name q st url = st ∨
    (url ∉ st.seen ∧
      (processPrimaryUrl env name q st url).seen = st.seen ++ [url] ∧
      ((processPrimaryUrl env name q st url).collected = st.collected ∨
        ∃ r, (processPrimaryUrl env name q st url).collected = st.collected ++ [r] ∧
          r.source_url = url ∧ r.content_type = "primary_source" ∧ r.content ≠ "")) := by
  unfold processPrimaryUrl
  by_cases h0 : url ∈ st.seen ∨ 5 ≤ st.pcount
  · rw [if_pos h0]
    exact Or.inl rfl
  · rw [if_neg h0]
    have hnot : url ∉ st.seen := (not_or.mp h0).1
    rcases hf : env.fetch url with _ | soup
    · exact Or.inr ⟨hnot, rfl, Or.inl rfl⟩
    · simp only
      by_cases htr : truthy (match knownScraperFor (urlNetloc url) with
        | some f => f soup
        | none => none) = true
      · rw [if_pos htr, if_neg (by simp [htr])]
        refine Or.inr ⟨hnot, rfl, Or.inr ⟨_, rfl, rfl, rfl, ?_⟩⟩
        rcases hK : (match knownScraperFor (urlNetloc url) with
          | some f => f soup
          | none => none) with _ | sk
        · rw [hK] at htr
          exact absurd htr (by simp [truthy])
        · rw [hK] at htr
          rw [hK]
          exact truthy_some_ne sk htr
      · have htr2 : truthy (match knownScraperFor (urlNetloc url) with
            | some f => f soup
            | none => none) = false := by
          cases hx : truthy (match knownScraperFor (urlNetloc url) with
            | some f => f soup
            | none => none)
          · rfl
          · exact absurd hx htr
        rw [if_neg htr]
        by_cases hq : strContains (lowerStr q) "primary" = true
        · rw [if_pos ⟨htr2, hq⟩]
          rcases he : extract_content soup with _ | c
          · exact Or.inr ⟨hnot, rfl, Or.inl rfl⟩
          · dsimp only
            by_cases htc : truthy (some c) = true
            · rw [if_pos htc]
              exact Or.inr ⟨hnot, rfl, Or.inr ⟨_, rfl, rfl, rfl, truthy_some_ne c htc⟩⟩
            · rw [if_neg htc]
              exact Or.inr ⟨hnot, rfl, Or.inl rfl⟩
        · rw [if_neg (fun hh => hq hh.2)]
          exact Or.inr ⟨hnot, rfl, Or.inl rfl⟩

/-- Shape of one secondary-phase URL step: either the state is unchanged, or
the URL was new, is appended to the seen set, and at most one new record is
appended, a well-formed secondary-source record for that URL whose content
passed the 500-character extraction threshold. -/
lemma processSecondaryUrl_cases (env : ScrapeEnv) (name : String) (st : CState)
    (url : String) :
    processSecondaryUrl env name st url = st ∨
    (url ∉ st.seen ∧
      (processSecondaryUrl env name st url).seen = st.seen ++ [url] ∧
      ((processSecondaryUrl env name st url).collected = st.collected ∨
        ∃ r, (processSecondaryUrl env name st url).collected = st.collected ++ [r] ∧
          r.source_url = url ∧ r.content_type = "secondary_source" ∧
          r.content ≠ "" ∧ 500 < r.content.length)) := by
  unfold processSecondaryUrl
  by_cases h0 : url ∈ st.seen ∨ 2 ≤ st.scount
  · rw [if_pos h0]
    exact Or.inl rfl
  · rw [if_neg h0]
    have hnot : url ∉ st.seen := (not_or.mp h0).1
    rcases hf : env.fetch url with _ | soup
    · exact Or.inr ⟨hnot, rfl, Or.inl rfl⟩
    · simp only
      rcases he : extract_content soup with _ | c
      · exact Or.inr ⟨hnot, rfl, Or.inl rfl⟩
      · dsimp only
        by_cases htc : truthy (some c) = true
        · rw [if_pos htc]
          exact Or.inr ⟨hnot, rfl, Or.inr ⟨_, rfl, rfl, rfl, truthy_some_ne c htc,
            extract_content_length soup c he⟩⟩
        · rw [if_neg htc]
          exact Or.inr ⟨hnot, rfl, Or.inl rfl⟩

lemma StOK_step (st : CState) (st' : CState) (url : String)
    (hnot : url ∉ st.seen) (hseen : st'.seen = st.seen ++ [url])
    (r : ContentRecord) (hr : st'.collected = st.collected ++ [r])
    (hu : r.source_url = url) (hok : RecOK r) (h : StOK st) : StOK st' := by
  refine ⟨?_, ?_, ?_⟩
  · rw [hr, List.map_append, List.nodup_append]
    refine ⟨h.1, by simp, ?_⟩
    intro a ha hb
    simp only [List.map_cons, List.map_nil, List.mem_singleton, hu] at hb
    rcases List.mem_map.mp ha with ⟨rec, hrec, hsrc⟩
    exact hnot (hb ▸ hsrc ▸ h.2.1 rec hrec)
  · intro rr hrr
    rw [hr] at hrr
    rcases List.mem_append.mp hrr with h1 | h2
    · rw [hseen]
      exact List.mem_append_left _ (h.2.1 rr h1)
    · rw [List.mem_singleton.mp h2, hseen, hu]
      exact List.mem_append_right _ (List.mem_singleton_self url)
  · intro rr hrr
    rw [hr] at hrr
    rcases List.mem_append.mp hrr with h1 | h2
    · exact h.2.2 rr h1
    · rw [List.mem_singleton.mp h2]
      exact hok

lemma StOK_same (st : CState) (st' : CState) (url : String)
    (hseen : st'.seen = st.seen ++ [url])
    (hr : st'.collected = st.collected) (h : StOK st) : StOK st' := by
  refine ⟨by rw [hr]; exact h.1, ?_, by rw [hr]; exact h.2.2⟩
  intro rr hrr
  rw [hr] at hrr
  rw [hseen]
  exact List.mem_append_left _ (h.2.1 rr hrr)

lemma processPrimaryUrl_StOK (env : ScrapeEnv) (name q : String) (st : CState)
    (url : String) (h : StOK st) : StOK (processPrimaryUrl env name q st url) := by
  rcases processPrimaryUrl_cases env name q st url with heq | ⟨hnot, hseen, hcol⟩
  · rw [heq]; exact h
  · rcases hcol with hsame | ⟨r, hr, hu, hct, hcn⟩
    · exact StOK_same st _ url hseen hsame h
    · refine StOK_step st _ url hnot hseen r hr hu ?_ h
      refine ⟨Or.inl hct, hcn, ?_⟩
      intro hx
      rw [hct] at hx
      exact absurd hx (by decide)

lemma processSecondaryUrl_StOK (env : ScrapeEnv) (name : String) (st : CState)
    (url : String) (h : StOK st) : StOK (processSecondaryUrl env name st url) := by
  rcases processSecondaryUrl_cases env name st url with heq | ⟨hnot, hseen, hcol⟩
  · rw [heq]; exact h
  · rcases hcol with hsame | ⟨r, hr, hu, hct, hcn, hlen⟩
    · exact StOK_same st _ url hseen hsame h
    · exact StOK_step st _ url hnot hseen r hr hu
        ⟨Or.inr hct, hcn, fun _ => hlen⟩ h

lemma foldl_processPrimaryUrl_StOK (env : ScrapeEnv) (name q : String) :
    ∀ (urls : List String) (st : CState), StOK st →
      StOK (urls.foldl (processPrimaryUrl env name q) st) := by
  intro urls
  induction urls with
  | nil => intro st h; exact h
  | cons u urls ih =>
    intro st h
    exact ih _ (processPrimaryUrl_StOK env name q st u h)

lemma foldl_processSecondaryUrl_StOK (env : ScrapeEnv) (name : String) :
    ∀ (urls : List String) (st : CState), StOK st →
      StOK (urls.foldl (processSecondaryUrl env name) st) := by
  intro urls
  induction urls with
  | nil => intro st h; exact h
  | cons u urls ih =>
    intro st h
    exact ih _ (processSecondaryUrl_StOK env name st u h)

lemma primaryPhase_StOK (env : ScrapeEnv) (name : String) :
    ∀ (qs : List String) (st : CState), StOK st →
      StOK (primaryPhase env name qs st) := by
  intro qs
  induction qs with
  | nil => intro st h; exact h
  | cons q qs ih =>
    intro st h
    unfold primaryPhase
    by_cases hc : 5 ≤ st.pcount
    · rw [if_pos hc]; exact h
    · rw [if_neg hc]
      exact ih _ (foldl_processPrimaryUrl_StOK env name q _ st h)

lemma secondaryPhase_StOK (env : ScrapeEnv) (name : String) :
    ∀ (qs : List String) (st : CState), StOK st →
      StOK (secondaryPhase env name qs st) := by
  intro qs
  induction qs with
  | nil => intro st h; exact h
  | cons q qs ih =>
    intro st h
    unfold secondaryPhase
    by_cases hc : 2 ≤ st.scount
    · rw [if_pos hc]; exact h
    · rw [if_neg hc]
      exact ih _ (foldl_processSecondaryUrl_StOK env name _ st h)

lemma scrape_content_StOK (env : ScrapeEnv) (name : String) :
    ∀ r ∈ scrape_content env name, RecOK r := by
  have h0 : StOK ⟨[], [], 0, 0⟩ := ⟨List.nodup_nil, by simp, by simp⟩
  have h1 := primaryPhase_StOK env name (primaryQueries name) _ h0
  unfold scrape_content
  dsimp only
  by_cases hc : (primaryPhase env name (primaryQueries name) ⟨[], [], 0, 0⟩).collected.length < 7
  · rw [if_pos hc]
    exact (secondaryPhase_StOK env name (secondaryQueries name) _ h1).2.2
  · rw [if_neg hc]
    exact h1.2.2

lemma scrape_content_nodup_urls (env : ScrapeEnv) (name : String) :
    ((scrape_content env name).map ContentRecord.source_url).Nodup := by
  have h0 : StOK ⟨[], [], 0, 0⟩ := ⟨List.nodup_nil, by simp, by simp⟩
  have h1 := primaryPhase_StOK env name (primaryQueries name) _ h0
  unfold scrape_content
  dsimp only
  by_cases hc : (primaryPhase env name (primaryQueries name) ⟨[], [], 0, 0⟩).collected.length < 7
  · rw [if_pos hc]
    exact (secondaryPhase_StOK env name (secondaryQueries name) _ h1).1
  · rw [if_neg hc]
    exact h1.1

/-! ## Claim theorems for the Source Collector -/

/-- A content body of 501 characters, just over the extraction threshold. -/
def longBody : String := String.mk (List.replicate 501 'a')

/-- Environment in which every primary query finds nothing and the first
secondary query finds one URL whose page yields a long generic extraction. -/
def envSecondary : ScrapeEnv :=
  ⟨fun q _ =>
      if q = "X philosophical writings analysis" then ["http://ex.com/a"] else [],
   fun u =>
      if u = "http://ex.com/a" then
        some ⟨none, none, [some longBody], none, some "T"⟩
      else none,
   "2026-01-01"⟩

/-- The single record the environment above produces. -/
def recSecondary : ContentRecord :=
  ⟨"http://ex.com/a", longBody, "secondary_source", "X", "2026-01-01", "T"⟩

set_option maxRecDepth 10000 in
/-- C2 counterexample: a secondary-phase record whose content_type is the
fixed string "secondary_source", which is none of the values the claimed
keyword heuristics could produce; scrape_content hardcodes the secondary
content type and performs no keyword classification. -/
theorem scrape_content_secondary_type_counterexample :
    (scrape_content envSecondary "X").map ContentRecord.content_type
      = ["secondary_source"] ∧
    "secondary_source" ∉
      ["speech", "writing", "correspondence", "interview", "primary_source", "other"] := by
  exact ⟨by decide, by decide⟩

/-- C2 (amended): no keyword heuristics exist; every record produced by
scrape_content carries content_type "primary_source" (both primary-phase
extraction paths) or the hardcoded "secondary_source" (secondary phase). -/
theorem scrape_content_type (env : ScrapeEnv) (name : String) :
    ∀ r ∈ scrape_content env name,
      r.content_type = "primary_source" ∨ r.content_type = "secondary_source" :=
  fun r hr => (scrape_content_StOK env name r hr).1

set_option maxRecDepth 10000 in
/-- C2 witness: the amended classification at a concrete record of a concrete
run. -/
theorem scrape_content_type_witness :
    recSecondary.content_type = "primary_source" ∨
    recSecondary.content_type = "secondary_source" :=
  scrape_content_type envSecondary "X" recSecondary (by decide)

/-- Environment in which the first primary query finds a wikisource URL whose
content container holds only five characters of text. -/
def envWikisource : ScrapeEnv :=
  ⟨fun q _ =>
      if q = "site:wikisource.org X writings" then
        ["https://en.wikisource.org/wiki/A"]
      else [],
   fun u =>
      if u = "https://en.wikisource.org/wiki/A" then
        some ⟨some "short", none, [], none, some "T"⟩
      else none,
   "2026-01-01"⟩

/-- The single record the environment above produces. -/
def recWikisource : ContentRecord :=
  ⟨"https://en.wikisource.org/wiki/A", "short", "primary_source", "X",
   "2026-01-01", "T"⟩

set_option maxRecDepth 10000 in
/-- C5 counterexample: a known-domain (wikisource) extraction of five
characters is accepted as a record, because the known-domain scrapers apply no
length threshold; the claim that every accepted record has content longer than
500 characters is false. -/
theorem scrape_content_short_counterexample :
    (scrape_content envWikisource "X").map ContentRecord.content = ["short"] ∧
    ¬500 < ("short" : String).length := by
  exact ⟨by decide, by decide⟩

/-- C5 (amended): every accepted record has non-empty content; the
500-character threshold is enforced by the generic extractor only, hence
every secondary-phase record exceeds 500 characters, while known-domain
(wikisource, gutenberg) extractions are accepted whenever non-empty, with no
length threshold. -/
theorem scrape_content_content_bounds :
    (∀ (env : ScrapeEnv) (name : String), ∀ r ∈ scrape_content env name,
      r.content ≠ "" ∧
        (r.content_type = "secondary_source" → 500 < r.content.length)) ∧
    ∀ (soup : Soup) (c : String), extract_content soup = some c → 500 < c.length := by
  constructor
  · intro env name r hr
    exact ⟨(scrape_content_StOK env name r hr).2.1,
      (scrape_content_StOK env name r hr).2.2⟩
  · intro soup c h
    exact extract_content_length soup c h

set_option maxRecDepth 10000 in
/-- C5 witness: non-emptiness at a concrete record, and the generic threshold
at a concrete page. -/
theorem scrape_content_content_bounds_witness :
    recWikisource.content ≠ "" ∧ 500 < longBody.length :=
  ⟨(scrape_content_content_bounds.1 envWikisource "X" recWikisource (by decide)).1,
   scrape_content_content_bounds.2 ⟨none, none, [some longBody], none, some "T"⟩
     longBody (by decide)⟩

/-- C8: within one collection run every URL is processed at most once (the
seen set is checked before processing, across both phases and all queries), so
the source_url values of the returned records are pairwise distinct. -/
theorem scrape_content_urls_distinct (env : ScrapeEnv) (name : String) :
    ((scrape_content env name).map ContentRecord.source_url).Nodup :=
  scrape_content_nodup_urls env name

/-! ## Retriever/Answerer: rag_qa.py `answer_question` -/

/-- The metadata of one retrieved chunk, as answer_question reads it. -/
structure ChunkMeta where
  source_url : String

/-- The result of one vector-store query: matched chunk texts and their
metadata, in relevance order. -/
structure QueryResult where
  documents : List String
  metadatas : List ChunkMeta

/-- Collaborators of answer_question: the person-filtered vector-store query
(question, n_results, person filter) and the generative completion of a user
prompt under the fixed system prompt at zero temperature. -/
structure RagEnv where
  query : String → Nat → String → QueryResult
  complete : String → String

/-- The outcome of answer_question: the returned answer and sources, plus the
number of generative calls the run made. -/
structure QAResult where
  answer : String
  sources : List String
  genCalls : Nat
deriving DecidableEq

/-- The user prompt template of answer_question. -/
def buildPrompt (person context question : String) : String :=
  "Based on the following excerpts about " ++ person ++
  ", please answer the question as if you are " ++ person ++
  ".\n        You are trying to converse with the user and answer their question, trying to base your response on primary source excerpts much as possible.\n\nExcerpts:\n" ++
  context ++ "\n\nQuestion: " ++ question ++ "\n\nAnswer:"

/-- `answer_question(question, person_name, n_chunks)` from rag_qa.py. -/
def answer_question (env : RagEnv) (question person : String) (nChunks : Nat) :
    QAResult :=
  let results := env.query question nChunks person
  if results.documents.isEmpty then
    ⟨"I don\x27t have enough information about " ++ person ++
      " to answer this question.", [], 0⟩
  else
    ⟨env.complete
       (buildPrompt person (String.intercalate "\n\n" results.documents) question),
     results.metadatas.map ChunkMeta.source_url, 1⟩

/-- C6: when the person-filtered vector query returns zero chunks,
answer_question returns exactly the fixed insufficient-information answer
with an empty sources list, and makes no generative call. -/
theorem answer_question_empty (env : RagEnv) (question person : String)
    (nChunks : Nat) (h : (env.query question nChunks person).documents = []) :
    answer_question env question person nChunks
      = ⟨"I don\x27t have enough information about " ++ person ++
          " to answer this question.", [], 0⟩ := by
  unfold answer_question
  dsimp only
  rw [h]
  rfl

/-- An environment whose vector store holds nothing. -/
def ragEnvEmpty : RagEnv := ⟨fun _ _ _ => ⟨[], []⟩, fun _ => ""⟩

/-- C6 witness: the empty-retrieval behavior at a concrete environment. -/
theorem answer_question_empty_witness :
    answer_question ragEnvEmpty "q" "Ada" 3
      = ⟨"I don\x27t have enough information about Ada to answer this question.",
         [], 0⟩ :=
  answer_question_empty ragEnvEmpty "q" "Ada" 3 rfl

/-! ## Index Loader: rag_qa.py `load_content` -/

/-- The file name load_content derives from the person name: lowercased,
spaces to underscores, plus the fixed suffix. -/
def contentFileName (person : String) : String :=
  String.mk ((person.data.map Char.toLower).map (fun c => if c = ' ' then '_' else c))
    ++ "_content.json"

/-- The one hard failure the pipeline surfaces. -/
inductive LoadError where
  | notFound
deriving DecidableEq

/-- One entry inserted into the vector store by load_content. -/
structure IndexEntry where
  id : String
  document : String
  person : String
  source_url : String
  content_type : String
  title : String
  chunk_index : Nat
  total_chunks : Nat

/-- The chunk entries of one record, with the deterministic ids and the
metadata load_content builds. -/
def chunkEntries (person : String) (idx : Nat) (rec : ContentRecord) :
    List IndexEntry :=
  let chunks := (splitText rec.content.data 1000).map String.mk
  chunks.mapIdx (fun chunkIdx chunk =>
    ⟨person ++ "_" ++ toString idx ++ "_" ++ toString chunkIdx, chunk, person,
     rec.source_url, rec.content_type, rec.title, chunkIdx, chunks.length⟩)

/-- `load_content(person_name)` from rag_qa.py, over a file-system
collaborator mapping file names to parsed record lists: raise the not-found
condition when the file is absent, otherwise chunk every record and insert
every chunk. -/
def load_content (fs : String → Option (List ContentRecord)) (person : String) :
    Except LoadError (List IndexEntry) :=
  match fs (contentFileName person) with
  | none => Except.error LoadError.notFound
  | some content =>
    Except.ok ((content.enum.map (fun p => chunkEntries person p.1 p.2)).flatten)

/-- C9: load_content surfaces an error exactly when no persisted content file
exists for the person, and that error is always the not-found condition; when
the file exists the load proceeds without raising it. -/
theorem load_content_notFound_iff (fs : String → Option (List ContentRecord))
    (person : String) :
    ((∃ e, load_content fs person = Except.error e)
        ↔ fs (contentFileName person) = none) ∧
    ∀ e, load_content fs person = Except.error e → e = LoadError.notFound := by
  constructor
  · constructor
    · rintro ⟨e, he⟩
      rcases hf : fs (contentFileName person) with _ | content
      · rfl
      · unfold load_content at he
        rw [hf] at he
        exact absurd he (by simp)
    · intro hf
      refine ⟨LoadError.notFound, ?_⟩
      unfold load_content
      rw [hf]
  · intro e he
    cases e
    rfl

/-- C9 witness: the missing-file error at a concrete empty file system. -/
theorem load_content_notFound_iff_witness :
    load_content (fun _ => none) "Ada" = Except.error LoadError.notFound := by
  rcases (load_content_notFound_iff (fun _ => none) "Ada").1.mpr rfl with ⟨e, he⟩
  rw [(load_content_notFound_iff (fun _ => none) "Ada").2 e he] at he
  exact he

end BioRAG
